import Mathlib

/-!
Shallow embedding of `src/vector.h` (ERupshis/Vector): a raw memory buffer
`RawMemory<T>` and a dynamic array `Vector<T>` built on top of it.

Modelling conventions.

* `RawMemory` is modelled with its two fields exactly as declared in the
  source: the owned buffer (`none` models `nullptr`; `some block` models an
  owned allocation holding `block.length` raw slots) and the `capacity_`
  counter.
* `Vector` only ever creates a `RawMemory` through `RawMemory(n)` (a buffer
  of exactly `n` slots) or default construction (null buffer).  Its storage
  is therefore modelled by a single list `slots` whose length is exactly
  `data_.Capacity()`, together with the live count `size_`.
* Object lifetime: placement-construction writes a value into a slot;
  `std::destroy_n` / `std::destroy_at` end lifetimes without writing, so in
  the model they leave the slot values unchanged (the slots become junk that
  the public interface never reads, every read being bounded by `size_`).
  Freshly allocated storage is uninitialized; junk slots are modelled by
  `default`.
* The `std` algorithms the source calls are modelled element by element in
  the order the C++ standard prescribes for them.
* The element type `T` is capability-polymorphic.  The two capabilities the
  source inspects (`std::is_nothrow_move_constructible_v<T>` and
  `std::is_copy_constructible_v<T>`) are passed as a `TypeCaps` value.  In
  this value-level model, move-constructing and copy-constructing an
  element both transfer the element's value.
* Iterators (`T*` into the buffer) are modelled as offsets from
  `data_.GetAddress()`.
-/

namespace Cpp

/-- Compile-time capabilities of the element type that the source inspects
in `Vector::TransferDataToNewHeap`. -/
structure TypeCaps where
  is_nothrow_move_constructible : Bool
  is_copy_constructible : Bool
  deriving DecidableEq

/-- Which construction a transfer performs per element: move-construction
(`std::uninitialized_move_n`) or copy-construction
(`std::uninitialized_copy_n`). -/
inductive TransferMode where
  | move
  | copy
  deriving DecidableEq

/-- Model of `RawMemory<T>`: the raw buffer (`none` is `nullptr`; `some
block` an owned allocation of `block.length` uninitialized slots) and the
`capacity_` field. -/
structure RawMemory (T : Type) where
  buffer_ : Option (List T)
  capacity_ : ℕ
  deriving DecidableEq

namespace RawMemory

/-- Translation of `RawMemory::Allocate(n)`: `n != 0 ? operator new(n *
sizeof(T)) : nullptr`.  A fresh allocation holds `n` uninitialized (junk)
slots. -/
def Allocate (T : Type) [Inhabited T] (n : ℕ) : Option (List T) :=
  if n ≠ 0 then some (List.replicate n default) else none

/-- Translation of `RawMemory()`: both fields default-initialized
(`buffer_ = nullptr`, `capacity_ = 0`). -/
def mkDefault (T : Type) : RawMemory T := ⟨none, 0⟩

/-- Translation of `explicit RawMemory(size_t capacity)`. -/
def mkWithCapacity (T : Type) [Inhabited T] (capacity : ℕ) : RawMemory T :=
  ⟨Allocate T capacity, capacity⟩

/-- Translation of `RawMemory::Swap(other)`: `std::swap(buffer_,
other.buffer_); std::swap(capacity_, other.capacity_)`.  Returns the pair
(this afterwards, other afterwards). -/
def Swap {T : Type} (a other : RawMemory T) : RawMemory T × RawMemory T :=
  (⟨other.buffer_, other.capacity_⟩, ⟨a.buffer_, a.capacity_⟩)

/-- Translation of the move constructor `RawMemory(RawMemory&& other)`:
the fields start default-initialized (`nullptr`, `0`), then `Swap(other)`.
Returns (the constructed object, other afterwards). -/
def moveCtor {T : Type} (other : RawMemory T) : RawMemory T × RawMemory T :=
  (mkDefault T).Swap other

/-- Translation of `RawMemory::operator=(RawMemory&& rhs)`: deallocate the
own buffer if non-null, set `buffer_ = nullptr` (note that `capacity_` is
left untouched by the source), then `Swap(rhs)`.  Returns (this afterwards,
rhs afterwards). -/
def moveAssign {T : Type} (a rhs : RawMemory T) : RawMemory T × RawMemory T :=
  let a1 : RawMemory T := ⟨none, a.capacity_⟩
  a1.Swap rhs

end RawMemory

/-- Contents of the buffer owned by a fresh `RawMemory<T>(n)` as used
inside `Vector`: `n` uninitialized (junk) slots.  A null buffer (`n = 0`)
is the empty list. -/
def allocBuffer (T : Type) [Inhabited T] (n : ℕ) : List T :=
  List.replicate n default

/-- Model of `std::uninitialized_value_construct_n(dst + off, n)`:
value-construct (`T()`, that is `default`) into the `n` uninitialized slots
`[off, off + n)`, first to last. -/
def uninitialized_value_construct_n {T : Type} [Inhabited T]
    (dst : List T) (off n : ℕ) : List T :=
  match n with
  | 0 => dst
  | Nat.succ k => uninitialized_value_construct_n (dst.set off default) (off + 1) k

/-- Model of `std::copy_n(src + srcOff, n, dst + dstOff)`: assign the `n`
values `src[srcOff + i]` to `dst[dstOff + i]`, first to last.  Reading
outside the source block is undefined behaviour in C++; the model yields
`default` there. -/
def copy_n {T : Type} [Inhabited T]
    (src : List T) (srcOff n : ℕ) (dst : List T) (dstOff : ℕ) : List T :=
  match n with
  | 0 => dst
  | Nat.succ k =>
      copy_n src (srcOff + 1) k (dst.set dstOff (src.getD srcOff default)) (dstOff + 1)

/-- Model of `std::uninitialized_copy_n(src + srcOff, n, dst + dstOff)`:
copy-construct each of the `n` source values into raw destination slots; at
the value level this coincides with `copy_n`. -/
def uninitialized_copy_n {T : Type} [Inhabited T]
    (src : List T) (srcOff n : ℕ) (dst : List T) (dstOff : ℕ) : List T :=
  copy_n src srcOff n dst dstOff

/-- Model of `std::uninitialized_move_n(src + srcOff, n, dst + dstOff)`:
move-construct each of the `n` source values into raw destination slots.
At the value level the constructed value is the source value, so this also
coincides with `copy_n`; the moved-from source slots are destroyed later
and never read again by the source code. -/
def uninitialized_move_n {T : Type} [Inhabited T]
    (src : List T) (srcOff n : ℕ) (dst : List T) (dstOff : ℕ) : List T :=
  copy_n src srcOff n dst dstOff

/-- Model of `std::move(first, last, d_first)` inside one buffer `buf`:
move-assign the `n = last - first` elements starting at `first` down to the
positions starting at `dst`, first to last (the order the standard
prescribes, which makes the overlapping leftward shift in `Erase`
correct). -/
def stdMove {T : Type} [Inhabited T] (buf : List T) (first dst n : ℕ) : List T :=
  match n with
  | 0 => buf
  | Nat.succ k => stdMove (buf.set dst (buf.getD first default)) (first + 1) (dst + 1) k

/-- Model of `std::move_backward(first, last, d_last)` inside one buffer:
move-assign the `n = last - first` elements of the range ending at `last`
(exclusive) so that the copied range ends at `d_last` (exclusive), last to
first (the order the standard prescribes, which makes the overlapping
rightward shift in `Emplace` correct). -/
def stdMoveBackward {T : Type} [Inhabited T] (buf : List T) (last dlast n : ℕ) : List T :=
  match n with
  | 0 => buf
  | Nat.succ k =>
      stdMoveBackward (buf.set (dlast - 1) (buf.getD (last - 1) default)) (last - 1) (dlast - 1) k

/-- Model of `Vector<T>`: `slots` is the contents of the owned `RawMemory`
buffer, so `slots.length` is exactly `data_.Capacity()`; `size_` is the
live-element count.  Exactly the first `size_` slots hold live elements. -/
structure Vector (T : Type) where
  slots : List T
  size_ : ℕ
  deriving DecidableEq

namespace Vector

/-- Translation of `Vector::Capacity()` (`data_.Capacity()`). -/
def Capacity {T : Type} (v : Vector T) : ℕ := v.slots.length

/-- Translation of `Vector::Size()`. -/
def Size {T : Type} (v : Vector T) : ℕ := v.size_

/-- The sequence observed by forward traversal from `begin()` to `end()`:
the `size_` live elements. -/
def elems {T : Type} (v : Vector T) : List T := v.slots.take v.size_

/-- The invariant relating the live count to the owned storage:
`size_ <= data_.Capacity()`. -/
def Inv {T : Type} (v : Vector T) : Prop := v.size_ ≤ v.Capacity

instance {T : Type} (v : Vector T) : Decidable v.Inv := by
  unfold Inv; infer_instance

/-- Translation of `Vector::TransferDataToNewHeap(src, size, dst)` (the
source pointers become list-plus-offset pairs): `if constexpr
(std::is_nothrow_move_constructible_v<T> ||
!std::is_copy_constructible_v<T>)` move-construct, otherwise
copy-construct, the `n` elements into the new heap.  The second component
records which construction the chosen algorithm performs for each of the
`n` transferred elements (`std::uninitialized_move_n` move-constructs each
element, `std::uninitialized_copy_n` copy-constructs each element). -/
def TransferDataToNewHeap {T : Type} [Inhabited T] (c : TypeCaps)
    (src : List T) (srcOff n : ℕ) (dst : List T) (dstOff : ℕ) :
    List T × List TransferMode :=
  if c.is_nothrow_move_constructible || !c.is_copy_constructible then
    (uninitialized_move_n src srcOff n dst dstOff, List.replicate n TransferMode.move)
  else
    (uninitialized_copy_n src srcOff n dst dstOff, List.replicate n TransferMode.copy)

/-- Translation of `Vector()`: default `RawMemory` (null buffer) and
`size_ = 0`. -/
def empty (T : Type) : Vector T := ⟨[], 0⟩

/-- Translation of `Vector(size_t n)`: allocate a buffer of `n` slots and
value-construct all `n` elements. -/
def mkN (T : Type) [Inhabited T] (n : ℕ) : Vector T :=
  ⟨uninitialized_value_construct_n (allocBuffer T n) 0 n, n⟩

/-- Translation of the copy constructor `Vector(const Vector& other)`:
allocate `other.size_` slots, copy-construct the `other.size_` live
elements. -/
def copyCtor {T : Type} [Inhabited T] (other : Vector T) : Vector T :=
  ⟨uninitialized_copy_n other.slots 0 other.size_ (allocBuffer T other.size_) 0,
   other.size_⟩

/-- Translation of `Vector::Swap(other)`: `data_.Swap(other.data_);
std::swap(size_, other.size_)`.  Returns (this afterwards, other
afterwards). -/
def Swap {T : Type} (a other : Vector T) : Vector T × Vector T := (other, a)

/-- Translation of the move constructor `Vector(Vector&& other)`: the
fields start default-initialized, then `Swap(other)`.  Returns (the
constructed vector, other afterwards). -/
def moveCtor {T : Type} (other : Vector T) : Vector T × Vector T :=
  (empty T).Swap other

/-- Translation of `Vector::operator=(const Vector& rhs)` for distinct
objects (the source's `this != &rhs` guard; under self-assignment the
source leaves the vector unchanged). -/
def assignCopy {T : Type} [Inhabited T] (v rhs : Vector T) : Vector T :=
  if rhs.size_ > v.Capacity then
    copyCtor rhs
  else
    let slots1 := copy_n rhs.slots 0 (min v.size_ rhs.size_) v.slots 0
    let slots2 :=
      if v.size_ > rhs.size_ then
        slots1
      else
        uninitialized_copy_n rhs.slots v.size_ (rhs.size_ - v.size_) slots1 v.size_
    ⟨slots2, rhs.size_⟩

/-- Translation of `Vector::operator=(Vector&& rhs)`: `Swap(rhs)`.
Returns (this afterwards, rhs afterwards). -/
def assignMove {T : Type} (v rhs : Vector T) : Vector T × Vector T := v.Swap rhs

/-- Translation of `Vector::Reserve(new_capacity)`.  The old elements'
lifetimes are ended by `std::destroy_n` and the old buffer is released
after the swap; neither is separately observable in the model. -/
def Reserve {T : Type} [Inhabited T] (c : TypeCaps) (v : Vector T)
    (new_capacity : ℕ) : Vector T :=
  if new_capacity ≤ v.Capacity then v
  else
    let new_data := allocBuffer T new_capacity
    let new_data := (TransferDataToNewHeap c v.slots 0 v.size_ new_data 0).1
    ⟨new_data, v.size_⟩

/-- Translation of `Vector::Resize(new_size)`.  In the shrinking branch
`std::destroy_n(data_ + new_size, size_ - new_size)` ends lifetimes without
writing, so the slot values are unchanged in the model. -/
def Resize {T : Type} [Inhabited T] (c : TypeCaps) (v : Vector T)
    (new_size : ℕ) : Vector T :=
  if v.size_ < new_size then
    let v1 := if new_size > v.Capacity then Reserve c v new_size else v
    ⟨uninitialized_value_construct_n v1.slots v1.size_ (new_size - v1.size_), new_size⟩
  else
    ⟨v.slots, new_size⟩

/-- Translation of `Vector::EmplaceBack(Args&&... args)`.  The constructor
call `T(std::forward<Args>(args)...)` is modelled by `mk`, applied to the
buffer contents at the moment the source performs the construction (the
arguments may reference the vector's own elements).  The returned reference
`data_[size_ - 1]` is the last element of `elems` and is not returned
separately. -/
def EmplaceBack {T : Type} [Inhabited T] (c : TypeCaps) (v : Vector T)
    (mk : List T → T) : Vector T :=
  if v.size_ = v.Capacity then
    let new_data := allocBuffer T (if v.size_ = 0 then 1 else v.size_ * 2)
    let new_data := new_data.set v.size_ (mk v.slots)
    let new_data := (TransferDataToNewHeap c v.slots 0 v.size_ new_data 0).1
    ⟨new_data, v.size_ + 1⟩
  else
    ⟨v.slots.set v.size_ (mk v.slots), v.size_ + 1⟩

/-- Translation of `Vector::PushBack(value)` (both overloads):
`EmplaceBack` with that one argument. -/
def PushBack {T : Type} [Inhabited T] (c : TypeCaps) (v : Vector T) (x : T) :
    Vector T :=
  EmplaceBack c v (fun _ => x)

/-- Translation of `Vector::PopBack()` (the source asserts the
precondition `size_ > 0`): destroy the last element, decrement `size_`. -/
def PopBack {T : Type} (v : Vector T) : Vector T := ⟨v.slots, v.size_ - 1⟩

/-- Translation of `Vector::Emplace(pos, Args&&... args)`.  `pos` is the
iterator as an offset from `begin()` (`pos_count` in the source;
`pos == cend()` is `pos = size_`).  `mk` models the constructor call
`T(std::forward<Args>(args)...)`, applied to the buffer contents at the
moment the source performs it.  Returns the vector and the offset of the
returned iterator `begin() + pos_count`. -/
def Emplace {T : Type} [Inhabited T] (c : TypeCaps) (v : Vector T) (pos : ℕ)
    (mk : List T → T) : Vector T × ℕ :=
  let pos_count := pos
  if pos = v.size_ then
    (EmplaceBack c v mk, pos_count)
  else if v.size_ = v.Capacity then
    let new_data := allocBuffer T (if v.size_ = 0 then 1 else v.size_ * 2)
    let new_data := new_data.set pos_count (mk v.slots)
    let new_data := (TransferDataToNewHeap c v.slots 0 pos_count new_data 0).1
    let dist_to_end := v.size_ - pos_count
    let new_data :=
      (TransferDataToNewHeap c v.slots pos_count dist_to_end new_data (pos_count + 1)).1
    (⟨new_data, v.size_ + 1⟩, pos_count)
  else
    let tmp := mk v.slots
    let b1 := uninitialized_move_n v.slots (v.size_ - 1) 1 v.slots v.size_
    let b2 := stdMoveBackward b1 (v.size_ - 1) v.size_ (v.size_ - 1 - pos_count)
    let b3 := b2.set pos_count tmp
    (⟨b3, v.size_ + 1⟩, pos_count)

/-- Translation of `Vector::Insert(pos, value)` (both overloads):
`Emplace` with that one argument. -/
def Insert {T : Type} [Inhabited T] (c : TypeCaps) (v : Vector T) (pos : ℕ)
    (x : T) : Vector T × ℕ :=
  Emplace c v pos (fun _ => x)

/-- Translation of `Vector::Erase(pos)`; `pos` is the iterator as an
offset from `begin()`.  Returns the vector and the offset of the returned
iterator. -/
def Erase {T : Type} [Inhabited T] (v : Vector T) (pos : ℕ) : Vector T × ℕ :=
  if pos = v.size_ then
    let v1 := PopBack v
    (v1, v1.size_)
  else
    let pos_count := pos
    let b1 := stdMove v.slots (pos_count + 1) pos_count (v.size_ - (pos_count + 1))
    let v1 := PopBack ⟨b1, v.size_⟩
    (v1, pos_count)

/-- Iterator offset of `begin()` (`data_.GetAddress()`). -/
def beginIt {T : Type} (v : Vector T) : ℕ := 0

/-- Iterator offset of `end()` (`data_.GetAddress() + size_`). -/
def endIt {T : Type} (v : Vector T) : ℕ := v.size_

/-- Translation of `Vector::operator+(size_t n)` (source lines 149-151):
its body returns `data_.GetAddress() + size_`, whatever `n` is. -/
def opPlus {T : Type} (v : Vector T) (n : ℕ) : ℕ := v.size_

/-- Translation of `Vector::EmplaceBack` with a fallible element
constructor: `ctor = none` models `T(std::forward<Args>(args)...)`
throwing, `ctor = some x` models it succeeding with value `x`.  A throw
propagates (`Except.error`), carrying the observable state of the vector at
that point; the local `new_data` buffer is freed by its destructor.  The
transfer of the pre-existing elements is not given a failure point here. -/
def EmplaceBackTry {T : Type} [Inhabited T] (c : TypeCaps) (v : Vector T)
    (ctor : Option T) : Except (Vector T) (Vector T) :=
  if v.size_ = v.Capacity then
    let new_data := allocBuffer T (if v.size_ = 0 then 1 else v.size_ * 2)
    match ctor with
    | none => Except.error v
    | some x =>
        let new_data := new_data.set v.size_ x
        let new_data := (TransferDataToNewHeap c v.slots 0 v.size_ new_data 0).1
        Except.ok ⟨new_data, v.size_ + 1⟩
  else
    match ctor with
    | none => Except.error v
    | some x => Except.ok ⟨v.slots.set v.size_ x, v.size_ + 1⟩

end Vector

/-- Reference sequence semantics (the specification's simple model):
append at the end. -/
def refAppend {T : Type} (l : List T) (x : T) : List T := l ++ [x]

/-- Reference sequence semantics (the specification's simple model):
insert at offset `p`. -/
def refInsertAt {T : Type} (l : List T) (p : ℕ) (x : T) : List T :=
  l.take p ++ x :: l.drop p

/-- Reference sequence semantics (the specification's simple model):
remove at offset `p`. -/
def refRemoveAt {T : Type} (l : List T) (p : ℕ) : List T :=
  l.take p ++ l.drop (p + 1)

/-- One operation of a workload: `push_back`, `insert` at an offset, or
`erase` at an offset. -/
inductive Op (T : Type) where
  | push : T → Op T
  | ins : ℕ → T → Op T
  | er : ℕ → Op T

/-- Run a workload on the modelled vector. -/
def runVec {T : Type} [Inhabited T] (c : TypeCaps) :
    List (Op T) → Vector T → Vector T
  | [], v => v
  | Op.push x :: ops, v => runVec c ops (Vector.PushBack c v x)
  | Op.ins p x :: ops, v => runVec c ops (Vector.Insert c v p x).1
  | Op.er p :: ops, v => runVec c ops (Vector.Erase v p).1

/-- Run a workload on the reference list. -/
def runRef {T : Type} : List (Op T) → List T → List T
  | [], l => l
  | Op.push x :: ops, l => runRef ops (refAppend l x)
  | Op.ins p x :: ops, l => runRef ops (refInsertAt l p x)
  | Op.er p :: ops, l => runRef ops (refRemoveAt l p)

/-- Validity of a workload against the running length: inserts at offsets
`p ≤ length`, erases at offsets `p < length`. -/
def validOps {T : Type} : List (Op T) → ℕ → Bool
  | [], _ => true
  | Op.push _ :: ops, k => validOps ops (k + 1)
  | Op.ins p _ :: ops, k => decide (p ≤ k) && validOps ops (k + 1)
  | Op.er p :: ops, k => decide (p < k) && validOps ops (k - 1)

/-- A sequence of `push_back` calls starting from the empty vector. -/
def pushN {T : Type} [Inhabited T] (c : TypeCaps) (xs : List T) : Vector T :=
  xs.foldl (Vector.PushBack c) (Vector.empty T)

/-- The capacity law claimed for `push_back` sequences: capacity `0` for
the empty sequence, otherwise the least power of two that is at least the
size. -/
def CapacityLaw (k m : ℕ) : Prop :=
  if k = 0 then m = 0
  else (∃ j, m = 2 ^ j) ∧ k ≤ m ∧ ∀ j, k ≤ 2 ^ j → m ≤ 2 ^ j

/-! Auxiliary list lemmas about `set`, `take` and `drop`. -/

theorem take_set_succ {T : Type} : ∀ (l : List T) (i : ℕ) (x : T), i < l.length →
    (l.set i x).take (i + 1) = l.take i ++ [x]
  | [], _, _, h => absurd h (by simp)
  | _ :: _, 0, _, _ => by simp
  | a :: l, i + 1, x, h => by
      simp only [List.set_cons_succ, List.take_succ_cons, List.cons_append]
      rw [take_set_succ l i x (by simpa using h)]

theorem take_set_of_le {T : Type} (l : List T) {i j : ℕ} (x : T) (h : j ≤ i) :
    (l.set i x).take j = l.take j := by
  rw [List.set_take]
  exact List.set_eq_of_length_le (by simp; omega)

theorem drop_set_self {T : Type} (l : List T) {i : ℕ} (x : T) (h : i < l.length) :
    (l.set i x).drop i = x :: l.drop (i + 1) := by
  rw [List.drop_set, if_neg (by omega), Nat.sub_self, List.drop_eq_getElem_cons h,
    List.set_cons_zero]

/-! Characterizations of the modelled `std` algorithms as list splices, and
their length preservation. -/

theorem length_uvcn {T : Type} [Inhabited T] :
    ∀ (n off : ℕ) (dst : List T),
      (uninitialized_value_construct_n dst off n).length = dst.length
  | 0, _, _ => rfl
  | Nat.succ k, off, dst => by
      rw [show uninitialized_value_construct_n dst off (k + 1)
            = uninitialized_value_construct_n (dst.set off default) (off + 1) k from rfl,
        length_uvcn k]
      simp

theorem length_copy_n {T : Type} [Inhabited T] :
    ∀ (n s d : ℕ) (src dst : List T),
      (copy_n src s n dst d).length = dst.length
  | 0, _, _, _, _ => rfl
  | Nat.succ k, s, d, src, dst => by
      rw [show copy_n src s (k + 1) dst d
            = copy_n src (s + 1) k (dst.set d (src.getD s default)) (d + 1) from rfl,
        length_copy_n k]
      simp

theorem length_stdMove {T : Type} [Inhabited T] :
    ∀ (n first d : ℕ) (buf : List T),
      (stdMove buf first d n).length = buf.length
  | 0, _, _, _ => rfl
  | Nat.succ k, first, d, buf => by
      rw [show stdMove buf first d (k + 1)
            = stdMove (buf.set d (buf.getD first default)) (first + 1) (d + 1) k from rfl,
        length_stdMove k]
      simp

theorem length_stdMoveBackward {T : Type} [Inhabited T] :
    ∀ (n last dlast : ℕ) (buf : List T),
      (stdMoveBackward buf last dlast n).length = buf.length
  | 0, _, _, _ => rfl
  | Nat.succ k, last, dlast, buf => by
      rw [show stdMoveBackward buf last dlast (k + 1)
            = stdMoveBackward (buf.set (dlast - 1) (buf.getD (last - 1) default))
                (last - 1) (dlast - 1) k from rfl,
        length_stdMoveBackward k]
      simp

theorem copy_n_eq {T : Type} [Inhabited T] :
    ∀ (n s d : ℕ) (src dst : List T), s + n ≤ src.length → d + n ≤ dst.length →
      copy_n src s n dst d =
        dst.take d ++ (src.drop s).take n ++ dst.drop (d + n)
  | 0, s, d, src, dst, _, _ => by simp [copy_n]
  | Nat.succ k, s, d, src, dst, hs, hd => by
      have hslen : s < src.length := by omega
      have hdlen : d < dst.length := by omega
      have hv : src.getD s default = src[s] := by
        rw [List.getD_eq_getElem?_getD, List.getElem?_eq_getElem hslen, Option.getD_some]
      simp only [Nat.succ_eq_add_one]
      rw [show copy_n src s (k + 1) dst d
            = copy_n src (s + 1) k (dst.set d (src.getD s default)) (d + 1) from rfl,
        copy_n_eq k (s + 1) (d + 1) src (dst.set d (src.getD s default))
          (by omega) (by simp; omega),
        take_set_succ dst d (src.getD s default) hdlen,
        List.drop_set_of_lt _ dst (show d < d + 1 + k by omega),
        hv, List.drop_eq_getElem_cons hslen,
        show d + 1 + k = d + (k + 1) by omega,
        List.take_succ_cons]
      simp only [List.singleton_append, List.cons_append, List.append_assoc, List.nil_append]

theorem stdMove_shift {T : Type} [Inhabited T] :
    ∀ (n p : ℕ) (buf : List T), p + 1 + n ≤ buf.length →
      stdMove buf (p + 1) p n =
        buf.take p ++ (buf.drop (p + 1)).take n ++ buf.drop (p + n)
  | 0, p, buf, _ => by simp [stdMove]
  | Nat.succ k, p, buf, h => by
      have hp1 : p + 1 < buf.length := by omega
      have hp0 : p < buf.length := by omega
      have hv : buf.getD (p + 1) default = buf[p + 1] := by
        rw [List.getD_eq_getElem?_getD, List.getElem?_eq_getElem hp1, Option.getD_some]
      simp only [Nat.succ_eq_add_one]
      rw [show stdMove buf (p + 1) p (k + 1)
            = stdMove (buf.set p (buf.getD (p + 1) default)) (p + 1 + 1) (p + 1) k from rfl,
        stdMove_shift k (p + 1) (buf.set p (buf.getD (p + 1) default)) (by simp; omega),
        take_set_succ buf p (buf.getD (p + 1) default) hp0,
        List.drop_set_of_lt _ buf (show p < p + 1 + 1 by omega),
        List.drop_set_of_lt _ buf (show p < p + 1 + k by omega),
        hv, List.drop_eq_getElem_cons hp1,
        show p + 1 + k = p + (k + 1) by omega,
        List.take_succ_cons]
      simp only [List.singleton_append, List.cons_append, List.append_assoc, List.nil_append]

theorem stdMoveBackward_shift {T : Type} [Inhabited T] :
    ∀ (n last : ℕ) (buf : List T), n ≤ last → last < buf.length →
      stdMoveBackward buf last (last + 1) n =
        buf.take (last + 1 - n) ++ (buf.drop (last - n)).take n ++ buf.drop (last + 1)
  | 0, last, buf, _, _ => by simp [stdMoveBackward]
  | Nat.succ k, last, buf, hn, hl => by
      obtain ⟨m, rfl⟩ : ∃ m, last = m + 1 := ⟨last - 1, by omega⟩
      have hm : m < buf.length := by omega
      have hm1 : m + 1 < buf.length := hl
      have hv : buf.getD m default = buf[m] := by
        rw [List.getD_eq_getElem?_getD, List.getElem?_eq_getElem hm, Option.getD_some]
      have hidx : (buf.drop (m - k))[k]? = some buf[m] := by
        rw [List.getElem?_drop, show m - k + k = m by omega, List.getElem?_eq_getElem hm]
      simp only [Nat.succ_eq_add_one]
      rw [show stdMoveBackward buf (m + 1) (m + 1 + 1) (k + 1)
            = stdMoveBackward (buf.set (m + 1 + 1 - 1) (buf.getD (m + 1 - 1) default))
                (m + 1 - 1) (m + 1 + 1 - 1) k from rfl,
        show m + 1 + 1 - 1 = m + 1 by omega, show m + 1 - 1 = m by omega,
        stdMoveBackward_shift k m (buf.set (m + 1) (buf.getD m default))
          (by omega) (by simp; omega),
        take_set_of_le buf (buf.getD m default) (show m + 1 - k ≤ m + 1 by omega),
        @List.drop_set T buf (m - k) (m + 1) (buf.getD m default),
        if_neg (show ¬ m + 1 < m - k by omega),
        show m + 1 - (m - k) = k + 1 by omega,
        List.take_set_of_lt _ _ (show k < k + 1 by omega),
        drop_set_self buf (buf.getD m default) hm1,
        hv,
        show m + 1 + 1 - (k + 1) = m + 1 - k by omega,
        show m + 1 - (k + 1) = m - k by omega,
        List.take_succ, hidx]
      simp [List.append_assoc]

theorem uvcn_eq {T : Type} [Inhabited T] :
    ∀ (n off : ℕ) (dst : List T), off + n ≤ dst.length →
      uninitialized_value_construct_n dst off n =
        dst.take off ++ List.replicate n default ++ dst.drop (off + n)
  | 0, off, dst, _ => by simp [uninitialized_value_construct_n]
  | Nat.succ k, off, dst, h => by
      have hoff : off < dst.length := by omega
      simp only [Nat.succ_eq_add_one]
      rw [show uninitialized_value_construct_n dst off (k + 1)
            = uninitialized_value_construct_n (dst.set off default) (off + 1) k from rfl,
        uvcn_eq k (off + 1) (dst.set off default) (by simp; omega),
        take_set_succ dst off default hoff,
        List.drop_set_of_lt _ dst (show off < off + 1 + k by omega),
        show off + 1 + k = off + (k + 1) by omega,
        List.replicate_succ]
      simp [List.append_assoc]

theorem TransferDataToNewHeap_fst {T : Type} [Inhabited T] (c : TypeCaps)
    (src : List T) (s n : ℕ) (dst : List T) (d : ℕ) :
    (Vector.TransferDataToNewHeap c src s n dst d).1 = copy_n src s n dst d := by
  unfold Vector.TransferDataToNewHeap uninitialized_move_n uninitialized_copy_n
  split <;> rfl

theorem elems_length {T : Type} (v : Vector T) (hv : v.size_ ≤ v.Capacity) :
    v.elems.length = v.size_ := by
  simp only [Vector.elems, Vector.Capacity] at *
  simp
  omega

/-! Behaviour of the `Vector` operations on the observable state. -/

theorem EmplaceBack_spec {T : Type} [Inhabited T] (c : TypeCaps) (v : Vector T)
    (mk : List T → T) (hv : v.size_ ≤ v.Capacity) :
    (Vector.EmplaceBack c v mk).elems = v.elems ++ [mk v.slots] ∧
    (Vector.EmplaceBack c v mk).size_ = v.size_ + 1 ∧
    (Vector.EmplaceBack c v mk).Capacity =
      (if v.size_ = v.Capacity then (if v.size_ = 0 then 1 else v.size_ * 2)
       else v.Capacity) := by
  by_cases h : v.size_ = v.Capacity
  · have hcap : v.slots.length = v.size_ := h.symm
    have hlt : v.size_ < (if v.size_ = 0 then 1 else v.size_ * 2) := by split <;> omega
    have key : Vector.EmplaceBack c v mk =
        ⟨copy_n v.slots 0 v.size_
           ((allocBuffer T (if v.size_ = 0 then 1 else v.size_ * 2)).set v.size_
             (mk v.slots)) 0,
         v.size_ + 1⟩ := by
      simp only [Vector.EmplaceBack, if_pos h, TransferDataToNewHeap_fst]
    rw [key]
    refine ⟨?_, rfl, ?_⟩
    · show (copy_n v.slots 0 v.size_ _ 0).take (v.size_ + 1)
          = v.slots.take v.size_ ++ [mk v.slots]
      rw [copy_n_eq v.size_ 0 0 v.slots _ (by omega) (by simp [allocBuffer]; omega)]
      simp only [List.take_zero, List.drop_zero, Nat.zero_add, List.nil_append]
      rw [drop_set_self (allocBuffer T (if v.size_ = 0 then 1 else v.size_ * 2))
          (mk v.slots) (by simp [allocBuffer]; omega),
        show mk v.slots ::
              (allocBuffer T (if v.size_ = 0 then 1 else v.size_ * 2)).drop (v.size_ + 1)
            = [mk v.slots] ++
              (allocBuffer T (if v.size_ = 0 then 1 else v.size_ * 2)).drop (v.size_ + 1)
          from rfl,
        ← List.append_assoc,
        List.take_left' (by simp; omega)]
    · show (copy_n v.slots 0 v.size_ _ 0).length = _
      rw [length_copy_n, if_pos h]
      simp [allocBuffer]
  · have hlt : v.size_ < v.slots.length := by
      have h1 : v.size_ ≤ v.slots.length := hv
      have h2 : v.size_ ≠ v.slots.length := h
      omega
    have key : Vector.EmplaceBack c v mk =
        ⟨v.slots.set v.size_ (mk v.slots), v.size_ + 1⟩ := by
      simp only [Vector.EmplaceBack, if_neg h]
    rw [key]
    refine ⟨?_, rfl, ?_⟩
    · show (v.slots.set v.size_ (mk v.slots)).take (v.size_ + 1)
          = v.slots.take v.size_ ++ [mk v.slots]
      exact take_set_succ v.slots v.size_ (mk v.slots) hlt
    · show (v.slots.set v.size_ (mk v.slots)).length = _
      rw [if_neg h]
      simp [Vector.Capacity]

theorem EmplaceBack_inv {T : Type} [Inhabited T] (c : TypeCaps) (v : Vector T)
    (mk : List T → T) (hv : v.size_ ≤ v.Capacity) :
    (Vector.EmplaceBack c v mk).size_ ≤ (Vector.EmplaceBack c v mk).Capacity := by
  obtain ⟨-, h2, h3⟩ := EmplaceBack_spec c v mk hv
  rw [h2, h3]
  split
  · split <;> omega
  · omega

theorem Reserve_spec {T : Type} [Inhabited T] (c : TypeCaps) (v : Vector T) (m : ℕ)
    (hv : v.size_ ≤ v.Capacity) :
    (Vector.Reserve c v m).size_ = v.size_ ∧
    (Vector.Reserve c v m).Capacity = max v.Capacity m ∧
    (Vector.Reserve c v m).elems = v.elems := by
  by_cases h : m ≤ v.Capacity
  · have key : Vector.Reserve c v m = v := by
      simp only [Vector.Reserve, if_pos h]
    rw [key]
    exact ⟨rfl, (Nat.max_eq_left h).symm, rfl⟩
  · have hlen : v.size_ ≤ v.slots.length := hv
    have hcap : v.Capacity < m := by omega
    have key : Vector.Reserve c v m =
        ⟨copy_n v.slots 0 v.size_ (allocBuffer T m) 0, v.size_⟩ := by
      simp only [Vector.Reserve, if_neg h, TransferDataToNewHeap_fst]
    rw [key]
    refine ⟨rfl, ?_, ?_⟩
    · show (copy_n v.slots 0 v.size_ (allocBuffer T m) 0).length = max v.Capacity m
      rw [length_copy_n]
      have : v.Capacity ≤ m := by omega
      simp [allocBuffer, Nat.max_eq_right this]
    · show (copy_n v.slots 0 v.size_ (allocBuffer T m) 0).take v.size_
          = v.slots.take v.size_
      rw [copy_n_eq v.size_ 0 0 v.slots _ (by omega)
          (by simp [allocBuffer]; unfold Vector.Capacity at hcap; omega)]
      simp only [List.take_zero, List.drop_zero, Nat.zero_add, List.nil_append]
      exact List.take_left' (by simp; omega)

theorem Resize_spec {T : Type} [Inhabited T] (c : TypeCaps) (v : Vector T) (n : ℕ)
    (hv : v.size_ ≤ v.Capacity) :
    (Vector.Resize c v n).size_ = n ∧
    (Vector.Resize c v n).Capacity = (if v.Capacity < n then n else v.Capacity) ∧
    (Vector.Resize c v n).elems =
      (if v.size_ < n then v.elems ++ List.replicate (n - v.size_) default
       else v.elems.take n) := by
  by_cases hgrow : v.size_ < n
  · by_cases hcap : n > v.Capacity
    · obtain ⟨r1, r2, r3⟩ := Reserve_spec c v n hv
      have hc : (Vector.Reserve c v n).Capacity = n := by
        rw [r2]; exact Nat.max_eq_right (by omega)
      have hlen : n ≤ (Vector.Reserve c v n).slots.length := by
        have h0 : (Vector.Reserve c v n).Capacity = (Vector.Reserve c v n).slots.length := rfl
        omega
      have key : Vector.Resize c v n =
          ⟨uninitialized_value_construct_n (Vector.Reserve c v n).slots
             (Vector.Reserve c v n).size_ (n - (Vector.Reserve c v n).size_), n⟩ := by
        simp only [Vector.Resize, if_pos hgrow, if_pos hcap]
      rw [key]
      refine ⟨rfl, ?_, ?_⟩
      · show (uninitialized_value_construct_n _ _ _).length = _
        rw [length_uvcn, if_pos hcap]
        exact hc
      · show (uninitialized_value_construct_n _ _ _).take n = _
        rw [uvcn_eq (n - (Vector.Reserve c v n).size_) (Vector.Reserve c v n).size_ _
            (by omega),
          if_pos hgrow,
          show (Vector.Reserve c v n).size_ + (n - (Vector.Reserve c v n).size_) = n by omega]
        refine (List.take_left' ?_).trans ?_
        · rw [List.length_append, List.length_replicate, List.length_take]
          omega
        · rw [show (Vector.Reserve c v n).slots.take (Vector.Reserve c v n).size_ = v.elems
              from r3, r1]
    · have hlen : n ≤ v.slots.length := by
        have h1 : ¬ v.Capacity < n := hcap
        have h2 : v.Capacity = v.slots.length := rfl
        omega
      have key : Vector.Resize c v n =
          ⟨uninitialized_value_construct_n v.slots v.size_ (n - v.size_), n⟩ := by
        simp only [Vector.Resize, if_pos hgrow, if_neg hcap]
      rw [key]
      refine ⟨rfl, ?_, ?_⟩
      · show (uninitialized_value_construct_n _ _ _).length = _
        rw [length_uvcn, if_neg hcap]
        rfl
      · show (uninitialized_value_construct_n _ _ _).take n = _
        rw [uvcn_eq (n - v.size_) v.size_ v.slots (by omega),
          if_pos hgrow,
          show v.size_ + (n - v.size_) = n by omega]
        exact List.take_left'
          (by rw [List.length_append, List.length_replicate, List.length_take]; omega)
  · have key : Vector.Resize c v n = ⟨v.slots, n⟩ := by
      simp only [Vector.Resize, if_neg hgrow]
    rw [key]
    refine ⟨rfl, ?_, ?_⟩
    · show v.slots.length = _
      rw [if_neg (by unfold Vector.Capacity at hv ⊢; omega)]
      rfl
    · show v.slots.take n = _
      rw [if_neg hgrow, Vector.elems, List.take_take,
        Nat.min_eq_left (by omega)]

theorem Emplace_spec {T : Type} [Inhabited T] (c : TypeCaps) (v : Vector T)
    (pos : ℕ) (mk : List T → T) (hpos : pos ≤ v.size_) (hv : v.size_ ≤ v.Capacity) :
    (Vector.Emplace c v pos mk).1.elems = refInsertAt v.elems pos (mk v.slots) ∧
    (Vector.Emplace c v pos mk).1.size_ = v.size_ + 1 ∧
    (Vector.Emplace c v pos mk).2 = pos := by
  by_cases h1 : pos = v.size_
  · have key : Vector.Emplace c v pos mk = (Vector.EmplaceBack c v mk, pos) := by
      simp only [Vector.Emplace, if_pos h1]
    obtain ⟨e1, e2, -⟩ := EmplaceBack_spec c v mk hv
    rw [key]
    refine ⟨?_, e2, rfl⟩
    rw [e1, refInsertAt, h1, ← elems_length v hv, List.take_length, List.drop_length]
  · by_cases h2 : v.size_ = v.Capacity
    · have hpos' : pos < v.size_ := by omega
      have hs1 : 1 ≤ v.size_ := by omega
      have hcap : v.slots.length = v.size_ := h2.symm
      have key : Vector.Emplace c v pos mk =
          (⟨copy_n v.slots pos (v.size_ - pos)
              (copy_n v.slots 0 pos
                ((allocBuffer T (v.size_ * 2)).set pos (mk v.slots)) 0)
              (pos + 1), v.size_ + 1⟩, pos) := by
        simp only [Vector.Emplace, if_neg h1, if_pos h2, TransferDataToNewHeap_fst,
          if_neg (show ¬ v.size_ = 0 by omega)]
      rw [key]
      refine ⟨?_, rfl, rfl⟩
      show (copy_n v.slots pos (v.size_ - pos)
              (copy_n v.slots 0 pos
                ((allocBuffer T (v.size_ * 2)).set pos (mk v.slots)) 0)
              (pos + 1)).take (v.size_ + 1) = _
      rw [copy_n_eq pos 0 0 v.slots _ (by omega) (by simp [allocBuffer]; omega)]
      simp only [List.take_zero, List.drop_zero, Nat.zero_add, List.nil_append]
      rw [drop_set_self (allocBuffer T (v.size_ * 2)) (mk v.slots)
          (by simp [allocBuffer]; omega),
        copy_n_eq (v.size_ - pos) pos (pos + 1) v.slots _ (by omega)
          (by simp [allocBuffer]; omega),
        show mk v.slots :: (allocBuffer T (v.size_ * 2)).drop (pos + 1)
            = [mk v.slots] ++ (allocBuffer T (v.size_ * 2)).drop (pos + 1) from rfl,
        ← List.append_assoc,
        List.take_left'
          (show (v.slots.take pos ++ [mk v.slots]).length = pos + 1 by simp; omega),
        List.take_left'
          (show ((v.slots.take pos ++ [mk v.slots]) ++
              (v.slots.drop pos).take (v.size_ - pos)).length = v.size_ + 1 by
            simp; omega),
        refInsertAt, Vector.elems, List.take_take, Nat.min_eq_left (by omega),
        List.drop_take]
      simp only [List.append_assoc, List.singleton_append]
    · have hle : v.size_ ≤ v.slots.length := hv
      have hne : v.size_ ≠ v.slots.length := h2
      have hlt : v.size_ < v.slots.length := by omega
      have hpos' : pos < v.size_ := by omega
      obtain ⟨m, hm⟩ : ∃ m, v.size_ = m + 1 := ⟨v.size_ - 1, by omega⟩
      have hposm : pos ≤ m := by omega
      have hmlen : m < v.slots.length := by omega
      have hm1len : m + 1 < v.slots.length := by omega
      have hval : v.slots.getD m default = v.slots[m] := by
        rw [List.getD_eq_getElem?_getD, List.getElem?_eq_getElem hmlen, Option.getD_some]
      have key : Vector.Emplace c v pos mk =
          (⟨(stdMoveBackward (v.slots.set v.size_ (v.slots.getD (v.size_ - 1) default))
               (v.size_ - 1) v.size_ (v.size_ - 1 - pos)).set pos (mk v.slots),
            v.size_ + 1⟩, pos) := by
        simp only [Vector.Emplace, if_neg h1, if_neg h2]
        rfl
      rw [key]
      refine ⟨?_, rfl, rfl⟩
      show ((stdMoveBackward (v.slots.set v.size_ (v.slots.getD (v.size_ - 1) default))
               (v.size_ - 1) v.size_ (v.size_ - 1 - pos)).set pos (mk v.slots)).take
            (v.size_ + 1) = _
      rw [hm, show m + 1 - 1 = m by omega,
        stdMoveBackward_shift (m - pos) m _ (by omega) (by simp; omega),
        show m + 1 - (m - pos) = pos + 1 by omega, show m - (m - pos) = pos by omega,
        take_set_of_le v.slots (v.slots.getD m default) (show pos + 1 ≤ m + 1 by omega),
        @List.drop_set T v.slots pos (m + 1) (v.slots.getD m default),
        if_neg (show ¬ m + 1 < pos by omega),
        show m + 1 - pos = (m - pos) + 1 by omega,
        List.take_set_of_lt _ _ (show m - pos < m - pos + 1 by omega),
        drop_set_self v.slots (v.slots.getD m default) hm1len, hval,
        List.set_append_left _ _ (by simp; omega),
        List.set_append_left _ _ (by simp; omega),
        ← List.set_take, take_set_succ v.slots pos (mk v.slots) (by omega),
        show (v.slots[m] :: v.slots.drop (m + 1 + 1) : List T)
            = [v.slots[m]] ++ v.slots.drop (m + 1 + 1) from rfl,
        ← List.append_assoc,
        List.take_left' (by simp; omega),
        refInsertAt, Vector.elems, hm, List.take_take, Nat.min_eq_left (by omega),
        List.drop_take, show m + 1 - pos = (m - pos) + 1 by omega, List.take_succ]
      have hidx : (v.slots.drop pos)[m - pos]? = some v.slots[m] := by
        rw [List.getElem?_drop, show pos + (m - pos) = m by omega,
          List.getElem?_eq_getElem hmlen]
      rw [hidx]
      simp [List.append_assoc]

theorem Emplace_inv {T : Type} [Inhabited T] (c : TypeCaps) (v : Vector T)
    (pos : ℕ) (mk : List T → T) (hv : v.size_ ≤ v.Capacity) :
    (Vector.Emplace c v pos mk).1.size_ ≤ (Vector.Emplace c v pos mk).1.Capacity ∧
    (Vector.Emplace c v pos mk).1.size_ = v.size_ + 1 := by
  by_cases h1 : pos = v.size_
  · have key : Vector.Emplace c v pos mk = (Vector.EmplaceBack c v mk, pos) := by
      simp only [Vector.Emplace, if_pos h1]
    rw [key]
    obtain ⟨-, e2, -⟩ := EmplaceBack_spec c v mk hv
    exact ⟨EmplaceBack_inv c v mk hv, e2⟩
  · by_cases h2 : v.size_ = v.Capacity
    · have key : Vector.Emplace c v pos mk =
          (⟨copy_n v.slots pos (v.size_ - pos)
              (copy_n v.slots 0 pos
                ((allocBuffer T (if v.size_ = 0 then 1 else v.size_ * 2)).set pos
                  (mk v.slots)) 0)
              (pos + 1), v.size_ + 1⟩, pos) := by
        simp only [Vector.Emplace, if_neg h1, if_pos h2, TransferDataToNewHeap_fst]
      rw [key]
      constructor
      · simp only [Vector.Capacity, length_copy_n, List.length_set, allocBuffer,
          List.length_replicate]
        split <;> omega
      · rfl
    · have key : Vector.Emplace c v pos mk =
          (⟨(stdMoveBackward (uninitialized_move_n v.slots (v.size_ - 1) 1 v.slots v.size_)
               (v.size_ - 1) v.size_ (v.size_ - 1 - pos)).set pos (mk v.slots),
            v.size_ + 1⟩, pos) := by
        simp only [Vector.Emplace, if_neg h1, if_neg h2]
      rw [key]
      constructor
      · simp only [Vector.Capacity, List.length_set, length_stdMoveBackward,
          uninitialized_move_n, length_copy_n]
        have h3 : v.size_ ≠ v.slots.length := h2
        have h4 : v.size_ ≤ v.slots.length := hv
        omega
      · rfl

theorem Erase_state {T : Type} [Inhabited T] (v : Vector T) (pos : ℕ) :
    (Vector.Erase v pos).1.size_ = v.size_ - 1 ∧
    (Vector.Erase v pos).1.Capacity = v.Capacity := by
  simp only [Vector.Erase, Vector.PopBack]
  split
  · exact ⟨rfl, rfl⟩
  · exact ⟨rfl, length_stdMove _ _ _ _⟩

theorem Erase_spec {T : Type} [Inhabited T] (v : Vector T) (pos : ℕ)
    (hpos : pos < v.size_) (hv : v.size_ ≤ v.Capacity) :
    (Vector.Erase v pos).1.elems = refRemoveAt v.elems pos ∧
    (Vector.Erase v pos).1.size_ = v.size_ - 1 ∧
    (Vector.Erase v pos).2 = pos := by
  have h1 : ¬ pos = v.size_ := by omega
  have hlen : v.size_ ≤ v.slots.length := hv
  have key : Vector.Erase v pos =
      (⟨stdMove v.slots (pos + 1) pos (v.size_ - (pos + 1)), v.size_ - 1⟩, pos) := by
    simp only [Vector.Erase, if_neg h1, Vector.PopBack]
  rw [key]
  refine ⟨?_, rfl, rfl⟩
  show (stdMove v.slots (pos + 1) pos (v.size_ - (pos + 1))).take (v.size_ - 1) = _
  rw [stdMove_shift (v.size_ - (pos + 1)) pos v.slots (by omega),
    List.take_left' (by simp; omega),
    refRemoveAt, Vector.elems, List.take_take, Nat.min_eq_left (by omega),
    List.drop_take]

theorem refRemoveAt_refInsertAt {T : Type} (l : List T) (p : ℕ) (x : T)
    (hp : p ≤ l.length) :
    refRemoveAt (refInsertAt l p x) p = l := by
  have h1 : (l.take p).length = p := by simp; omega
  rw [refInsertAt, refRemoveAt, List.take_left' h1,
    show p + 1 = (l.take p).length + 1 by omega, List.drop_append]
  simp

theorem elems_getD {T : Type} [Inhabited T] (v : Vector T) (i : ℕ)
    (hi : i < v.size_) :
    v.elems.getD i default = v.slots.getD i default := by
  simp [Vector.elems, List.getElem?_take, hi]

theorem CapacityLaw_step {T : Type} [Inhabited T] (c : TypeCaps) (v : Vector T)
    (x : T) (hv : v.size_ ≤ v.Capacity) (hl : CapacityLaw v.size_ v.Capacity) :
    (Vector.PushBack c v x).size_ = v.size_ + 1 ∧
    (Vector.PushBack c v x).size_ ≤ (Vector.PushBack c v x).Capacity ∧
    CapacityLaw (Vector.PushBack c v x).size_ (Vector.PushBack c v x).Capacity := by
  obtain ⟨-, e2, e3⟩ := EmplaceBack_spec c v (fun _ => x) hv
  refine ⟨e2, EmplaceBack_inv c v (fun _ => x) hv, ?_⟩
  show CapacityLaw (Vector.EmplaceBack c v (fun _ => x)).size_
      (Vector.EmplaceBack c v (fun _ => x)).Capacity
  rw [e2, e3, CapacityLaw, if_neg (by omega : ¬ v.size_ + 1 = 0)]
  by_cases h0 : v.size_ = 0
  · have hcap0 : v.Capacity = 0 := by
      rw [CapacityLaw, if_pos h0] at hl; exact hl
    rw [if_pos (by omega : v.size_ = v.Capacity), if_pos h0]
    exact ⟨⟨0, rfl⟩, by omega, fun j hj => Nat.one_le_two_pow⟩
  · rw [CapacityLaw, if_neg h0] at hl
    obtain ⟨⟨j, hj⟩, hle, hleast⟩ := hl
    by_cases heq : v.size_ = v.Capacity
    · rw [if_pos heq, if_neg h0]
      refine ⟨⟨j + 1, by rw [pow_succ, ← hj, ← heq]⟩, by omega, ?_⟩
      intro i hi
      have h2j : (2 : ℕ) ^ j < 2 ^ i := by
        have hi' := hi
        rw [heq, hj] at hi'
        omega
      have hji : j < i := (Nat.pow_lt_pow_iff_right (by norm_num)).1 h2j
      calc v.size_ * 2 = 2 ^ (j + 1) := by rw [pow_succ, ← hj, ← heq]
        _ ≤ 2 ^ i := Nat.pow_le_pow_right (by norm_num) (by omega)
    · rw [if_neg heq]
      exact ⟨⟨j, hj⟩, by omega, fun i hi => hleast i (by omega)⟩

theorem pushN_spec {T : Type} [Inhabited T] (c : TypeCaps) (xs : List T) :
    (pushN c xs).size_ = xs.length ∧
    (pushN c xs).size_ ≤ (pushN c xs).Capacity ∧
    CapacityLaw (pushN c xs).size_ (pushN c xs).Capacity := by
  suffices h : ∀ (ys : List T) (v : Vector T), v.size_ ≤ v.Capacity →
      CapacityLaw v.size_ v.Capacity →
      (ys.foldl (Vector.PushBack c) v).size_ = v.size_ + ys.length ∧
      (ys.foldl (Vector.PushBack c) v).size_ ≤ (ys.foldl (Vector.PushBack c) v).Capacity ∧
      CapacityLaw (ys.foldl (Vector.PushBack c) v).size_
        (ys.foldl (Vector.PushBack c) v).Capacity by
    obtain ⟨h1, h2, h3⟩ := h xs (Vector.empty T) (Nat.le_refl 0)
      (by simp [CapacityLaw, Vector.empty, Vector.Capacity])
    refine ⟨?_, h2, h3⟩
    rw [show pushN c xs = xs.foldl (Vector.PushBack c) (Vector.empty T) from rfl, h1]
    simp [Vector.empty]
  intro ys
  induction ys with
  | nil => exact fun v h1 h2 => ⟨by simp, h1, h2⟩
  | cons y ys ih =>
      intro v h1 h2
      obtain ⟨s1, s2, s3⟩ := CapacityLaw_step c v y h1 h2
      obtain ⟨t1, t2, t3⟩ := ih (Vector.PushBack c v y) s2 s3
      refine ⟨?_, ?_, ?_⟩
      · rw [List.foldl_cons, t1, s1, List.length_cons]; omega
      · rw [List.foldl_cons]; exact t2
      · rw [List.foldl_cons]; exact t3

theorem runVec_matches {T : Type} [Inhabited T] (c : TypeCaps) :
    ∀ (ops : List (Op T)) (v : Vector T), v.size_ ≤ v.Capacity →
      validOps ops v.size_ = true →
      (runVec c ops v).elems = runRef ops v.elems
  | [], _, _, _ => rfl
  | Op.push x :: ops, v, hv, hval => by
      have hval' : validOps ops (v.size_ + 1) = true := by
        simpa [validOps] using hval
      obtain ⟨e1, e2, -⟩ := EmplaceBack_spec c v (fun _ => x) hv
      have hinv : (Vector.PushBack c v x).size_ ≤ (Vector.PushBack c v x).Capacity :=
        EmplaceBack_inv c v (fun _ => x) hv
      show (runVec c ops (Vector.PushBack c v x)).elems = runRef ops (refAppend v.elems x)
      rw [runVec_matches c ops (Vector.PushBack c v x) hinv
          (by rw [show (Vector.PushBack c v x).size_ = v.size_ + 1 from e2]; exact hval')]
      congr 1
  | Op.ins p x :: ops, v, hv, hval => by
      have h := hval
      simp only [validOps, Bool.and_eq_true, decide_eq_true_eq] at h
      obtain ⟨hp, hval'⟩ := h
      obtain ⟨e1, e2, -⟩ := Emplace_spec c v p (fun _ => x) hp hv
      obtain ⟨hinv, -⟩ := Emplace_inv c v p (fun _ => x) hv
      show (runVec c ops (Vector.Insert c v p x).1).elems
          = runRef ops (refInsertAt v.elems p x)
      rw [runVec_matches c ops (Vector.Insert c v p x).1 hinv
          (by rw [show (Vector.Insert c v p x).1.size_ = v.size_ + 1 from e2]; exact hval')]
      congr 1
  | Op.er p :: ops, v, hv, hval => by
      have h := hval
      simp only [validOps, Bool.and_eq_true, decide_eq_true_eq] at h
      obtain ⟨hp, hval'⟩ := h
      obtain ⟨e1, e2, -⟩ := Erase_spec v p hp hv
      obtain ⟨s1, s2⟩ := Erase_state v p
      have hinv : (Vector.Erase v p).1.size_ ≤ (Vector.Erase v p).1.Capacity := by
        rw [s1, s2]; omega
      show (runVec c ops (Vector.Erase v p).1).elems = runRef ops (refRemoveAt v.elems p)
      rw [runVec_matches c ops (Vector.Erase v p).1 hinv
          (by rw [show (Vector.Erase v p).1.size_ = v.size_ - 1 from e2]; exact hval')]
      congr 1

theorem EmplaceBackTry_ok {T : Type} [Inhabited T] (c : TypeCaps) (v : Vector T)
    (x : T) :
    Vector.EmplaceBackTry c v (some x)
      = Except.ok (Vector.EmplaceBack c v (fun _ => x)) := by
  by_cases h : v.size_ = v.Capacity
  · simp only [Vector.EmplaceBackTry, Vector.EmplaceBack, if_pos h]
  · simp only [Vector.EmplaceBackTry, Vector.EmplaceBack, if_neg h]

/-! The claims. -/

/-- Claim C1: for every sequence of push_back, insert (at any valid offset)
and erase (at any valid offset) operations starting from an empty array, the
sequence of elements observed by forward traversal equals the sequence
produced by a reference list with simple append, insert-at and remove-at
semantics applied in the same order. -/
theorem claim_C1 {T : Type} [Inhabited T] (c : TypeCaps) (ops : List (Op T))
    (hval : validOps ops 0 = true) :
    (runVec c ops (Vector.empty T)).elems = runRef ops [] :=
  runVec_matches c ops (Vector.empty T) (Nat.le_refl 0) hval

/-- Witness for C1: the specification's concrete scenario push_back 1, 2, 3,
erase at offset 1, insert 0 at offset 0. -/
theorem claim_C1_witness :
    validOps [Op.push 1, Op.push 2, Op.push 3, Op.er 1, Op.ins 0 0] (0 : ℕ) = true ∧
    (runVec ⟨true, true⟩ [Op.push 1, Op.push 2, Op.push 3, Op.er 1, Op.ins 0 0]
        (Vector.empty ℕ)).elems
      = runRef [Op.push 1, Op.push 2, Op.push 3, Op.er 1, Op.ins 0 0] [] :=
  ⟨by decide, claim_C1 ⟨true, true⟩ _ (by decide)⟩

/-- Claim C2: if during the growth path of EmplaceBack (length equal to
capacity) the new element's constructor throws, the array's size, capacity
and every existing element are exactly as before the call (the failing call
leaves the whole state unchanged), because the new element is constructed in
the new buffer before any existing element is transferred or destroyed. -/
theorem claim_C2 {T : Type} [Inhabited T] (c : TypeCaps) (v : Vector T)
    (hgrow : v.size_ = v.Capacity) :
    Vector.EmplaceBackTry c v none = Except.error v := by
  simp only [Vector.EmplaceBackTry, if_pos hgrow]

/-- Witness for C2: a full vector of capacity 2 whose growth-path push
fails. -/
theorem claim_C2_witness :
    (⟨[1, 2], 2⟩ : Vector ℕ).size_ = (⟨[1, 2], 2⟩ : Vector ℕ).Capacity ∧
    Vector.EmplaceBackTry ⟨true, true⟩ (⟨[1, 2], 2⟩ : Vector ℕ) none
      = Except.error ⟨[1, 2], 2⟩ :=
  ⟨by decide, claim_C2 ⟨true, true⟩ _ (by decide)⟩

/-- Claim C3: after any sequence of push_back calls on an initially empty
array, size equals the number of calls, capacity is never less than size,
and capacity follows the claimed law: 0 for the empty sequence, otherwise
the least power of two that is at least the size (the doubling sequence
1, 2, 4, 8, ... starting from capacity 0). -/
theorem claim_C3 {T : Type} [Inhabited T] (c : TypeCaps) (xs : List T) :
    (pushN c xs).size_ = xs.length ∧
    xs.length ≤ (pushN c xs).Capacity ∧
    CapacityLaw xs.length (pushN c xs).Capacity := by
  obtain ⟨h1, h2, h3⟩ := pushN_spec c xs
  rw [h1] at h2 h3
  exact ⟨h1, h2, h3⟩

/-- Witness for C3: three push_back calls give size 3 and the capacity law
at 3 (capacity 4). -/
theorem claim_C3_witness :
    (pushN ⟨true, true⟩ [5, 6, 7]).size_ = 3 ∧
    3 ≤ (pushN ⟨true, true⟩ [5, 6, 7]).Capacity ∧
    CapacityLaw 3 (pushN ⟨true, true⟩ [5, 6, 7]).Capacity :=
  claim_C3 ⟨true, true⟩ [5, 6, 7]

/-- Claim C4: during every reallocation the element-transfer strategy is
chosen statically from the element type's capabilities, uniformly for the
whole transferred range: each of the n elements is move-constructed exactly
when the type has a non-throwing move constructor or no copy constructor at
all, and copy-constructed otherwise. -/
theorem claim_C4 {T : Type} [Inhabited T] (c : TypeCaps) (src : List T)
    (srcOff n : ℕ) (dst : List T) (dstOff : ℕ) :
    ∃ m : TransferMode,
      (Vector.TransferDataToNewHeap c src srcOff n dst dstOff).2
        = List.replicate n m ∧
      (m = TransferMode.move ↔
        (c.is_nothrow_move_constructible = true ∨ c.is_copy_constructible = false)) := by
  obtain ⟨nm, cc⟩ := c
  cases nm <;> cases cc <;>
    first
      | exact ⟨TransferMode.move, rfl, by decide⟩
      | exact ⟨TransferMode.copy, rfl, by decide⟩

/-- Counterexample to C5 as stated: move-assigning a RawMemory of capacity 5
into a destination of capacity 3 leaves the source with capacity_ 3, not 0. -/
theorem claim_C5_counterexample :
    ¬ ((RawMemory.moveAssign (RawMemory.mkWithCapacity ℕ 3)
          (RawMemory.mkWithCapacity ℕ 5)).2.capacity_ = 0) := by
  decide

/-- Claim C5 as amended: both RawMemory move operations transfer ownership
of buffer and capacity to the destination.  Move-construction leaves the
source with a null buffer and capacity 0; move-assignment leaves the source
with a null buffer but with the destination's previous capacity_ value
(0 only when the destination's capacity was 0). -/
theorem claim_C5_amended {T : Type} (a b : RawMemory T) :
    RawMemory.moveCtor a = (a, ⟨none, 0⟩) ∧
    RawMemory.moveAssign a b = (b, ⟨none, a.capacity_⟩) :=
  ⟨rfl, rfl⟩

/-- Claim C6: for every array, every valid position p in [0, length] and
every value x, inserting x at p and then erasing at the position returned by
the insertion reproduces the original sequence and size. -/
theorem claim_C6 {T : Type} [Inhabited T] (c : TypeCaps) (v : Vector T)
    (p : ℕ) (x : T) (hp : p ≤ v.size_) (hv : v.size_ ≤ v.Capacity) :
    (Vector.Erase (Vector.Insert c v p x).1 (Vector.Insert c v p x).2).1.elems
        = v.elems ∧
    (Vector.Erase (Vector.Insert c v p x).1 (Vector.Insert c v p x).2).1.size_
        = v.size_ := by
  obtain ⟨e1, e2, e3⟩ := Emplace_spec c v p (fun _ => x) hp hv
  obtain ⟨hinv, -⟩ := Emplace_inv c v p (fun _ => x) hv
  rw [show Vector.Insert c v p x = Vector.Emplace c v p (fun _ => x) from rfl, e3]
  obtain ⟨f1, f2, -⟩ := Erase_spec (Vector.Emplace c v p (fun _ => x)).1 p
    (by rw [e2]; omega) hinv
  constructor
  · rw [f1, e1, refRemoveAt_refInsertAt v.elems p x (by rw [elems_length v hv]; omega)]
  · rw [f2, e2]
    omega

/-- Witness for C6: inserting 9 at offset 1 of [1, 2, 3] and erasing at the
returned position restores [1, 2, 3]. -/
theorem claim_C6_witness :
    1 ≤ (⟨[1, 2, 3], 3⟩ : Vector ℕ).size_ ∧
    (⟨[1, 2, 3], 3⟩ : Vector ℕ).size_ ≤ (⟨[1, 2, 3], 3⟩ : Vector ℕ).Capacity ∧
    ((Vector.Erase (Vector.Insert ⟨true, true⟩ (⟨[1, 2, 3], 3⟩ : Vector ℕ) 1 9).1
        (Vector.Insert ⟨true, true⟩ (⟨[1, 2, 3], 3⟩ : Vector ℕ) 1 9).2).1.elems
      = (⟨[1, 2, 3], 3⟩ : Vector ℕ).elems ∧
     (Vector.Erase (Vector.Insert ⟨true, true⟩ (⟨[1, 2, 3], 3⟩ : Vector ℕ) 1 9).1
        (Vector.Insert ⟨true, true⟩ (⟨[1, 2, 3], 3⟩ : Vector ℕ) 1 9).2).1.size_
      = (⟨[1, 2, 3], 3⟩ : Vector ℕ).size_) :=
  ⟨by decide, by decide, claim_C6 ⟨true, true⟩ _ 1 9 (by decide) (by decide)⟩

/-- Claim C7: Resize(newSize) sets the length to newSize; when growing it
changes the capacity only if newSize exceeds it and default-constructs
exactly the new slots; when shrinking it keeps the first newSize elements
and leaves the capacity unchanged. -/
theorem claim_C7 {T : Type} [Inhabited T] (c : TypeCaps) (v : Vector T)
    (n : ℕ) (hv : v.size_ ≤ v.Capacity) :
    (Vector.Resize c v n).size_ = n ∧
    (Vector.Resize c v n).Capacity = (if v.Capacity < n then n else v.Capacity) ∧
    (Vector.Resize c v n).elems =
      (if v.size_ < n then v.elems ++ List.replicate (n - v.size_) default
       else v.elems.take n) :=
  Resize_spec c v n hv

/-- Witness for C7: the specification's scenario Resize(5) on [1, 2, 3]. -/
theorem claim_C7_witness :
    (⟨[1, 2, 3], 3⟩ : Vector ℕ).size_ ≤ (⟨[1, 2, 3], 3⟩ : Vector ℕ).Capacity ∧
    ((Vector.Resize ⟨true, true⟩ (⟨[1, 2, 3], 3⟩ : Vector ℕ) 5).size_ = 5 ∧
     (Vector.Resize ⟨true, true⟩ (⟨[1, 2, 3], 3⟩ : Vector ℕ) 5).Capacity
       = (if (⟨[1, 2, 3], 3⟩ : Vector ℕ).Capacity < 5 then 5
          else (⟨[1, 2, 3], 3⟩ : Vector ℕ).Capacity) ∧
     (Vector.Resize ⟨true, true⟩ (⟨[1, 2, 3], 3⟩ : Vector ℕ) 5).elems
       = (if (⟨[1, 2, 3], 3⟩ : Vector ℕ).size_ < 5
          then (⟨[1, 2, 3], 3⟩ : Vector ℕ).elems ++
            List.replicate (5 - (⟨[1, 2, 3], 3⟩ : Vector ℕ).size_) default
          else (⟨[1, 2, 3], 3⟩ : Vector ℕ).elems.take 5)) :=
  ⟨by decide, claim_C7 ⟨true, true⟩ _ 5 (by decide)⟩

/-- Claim C8: every public operation of the dynamic array (construction,
copy and move construction and assignment, Reserve, Resize, EmplaceBack,
PushBack, PopBack, Emplace, Insert, Erase, Swap) preserves the invariant
length ≤ capacity, given operands satisfying it. -/
theorem claim_C8 {T : Type} [Inhabited T] (c : TypeCaps) (v w : Vector T)
    (n p : ℕ) (x : T) (hv : v.Inv) (hw : w.Inv) :
    (Vector.empty T).Inv ∧
    (Vector.mkN T n).Inv ∧
    (Vector.copyCtor v).Inv ∧
    (Vector.moveCtor v).1.Inv ∧ (Vector.moveCtor v).2.Inv ∧
    (Vector.assignCopy v w).Inv ∧
    (Vector.assignMove v w).1.Inv ∧ (Vector.assignMove v w).2.Inv ∧
    (Vector.Reserve c v n).Inv ∧
    (Vector.Resize c v n).Inv ∧
    (Vector.EmplaceBack c v (fun _ => x)).Inv ∧
    (Vector.PushBack c v x).Inv ∧
    (Vector.PopBack v).Inv ∧
    (Vector.Emplace c v p (fun _ => x)).1.Inv ∧
    (Vector.Insert c v p x).1.Inv ∧
    (Vector.Erase v p).1.Inv ∧
    (Vector.Swap v w).1.Inv ∧ (Vector.Swap v w).2.Inv := by
  have hv' : v.size_ ≤ v.Capacity := hv
  have hAC : (Vector.assignCopy v w).Inv := by
    by_cases hsz : w.size_ > v.Capacity
    · have key : Vector.assignCopy v w = Vector.copyCtor w := by
        simp only [Vector.assignCopy, if_pos hsz]
      rw [key]
      show w.size_ ≤ (Vector.copyCtor w).Capacity
      simp [Vector.copyCtor, Vector.Capacity, uninitialized_copy_n, length_copy_n,
        allocBuffer]
    · by_cases hgt : v.size_ > w.size_
      · have key : Vector.assignCopy v w =
            ⟨copy_n w.slots 0 (min v.size_ w.size_) v.slots 0, w.size_⟩ := by
          simp only [Vector.assignCopy, if_neg hsz, if_pos hgt]
        rw [key]
        show w.size_ ≤
            (⟨copy_n w.slots 0 (min v.size_ w.size_) v.slots 0, w.size_⟩ : Vector T).Capacity
        simp only [Vector.Capacity, length_copy_n]
        unfold Vector.Capacity at hsz
        omega
      · have key : Vector.assignCopy v w =
            ⟨uninitialized_copy_n w.slots v.size_ (w.size_ - v.size_)
               (copy_n w.slots 0 (min v.size_ w.size_) v.slots 0) v.size_,
             w.size_⟩ := by
          simp only [Vector.assignCopy, if_neg hsz, if_neg hgt]
        rw [key]
        show w.size_ ≤
            (⟨uninitialized_copy_n w.slots v.size_ (w.size_ - v.size_)
                (copy_n w.slots 0 (min v.size_ w.size_) v.slots 0) v.size_,
              w.size_⟩ : Vector T).Capacity
        simp only [Vector.Capacity, uninitialized_copy_n, length_copy_n]
        unfold Vector.Capacity at hsz
        omega
  refine ⟨Nat.le_refl 0, ?_, ?_, hv, Nat.le_refl 0, hAC, hw, hv, ?_, ?_,
    EmplaceBack_inv c v (fun _ => x) hv', EmplaceBack_inv c v (fun _ => x) hv', ?_,
    (Emplace_inv c v p (fun _ => x) hv').1, (Emplace_inv c v p (fun _ => x) hv').1,
    ?_, hw, hv⟩
  · show n ≤ (Vector.mkN T n).Capacity
    simp [Vector.mkN, Vector.Capacity, length_uvcn, allocBuffer]
  · show v.size_ ≤ (Vector.copyCtor v).Capacity
    simp [Vector.copyCtor, Vector.Capacity, uninitialized_copy_n, length_copy_n,
      allocBuffer]
  · obtain ⟨r1, r2, -⟩ := Reserve_spec c v n hv'
    show (Vector.Reserve c v n).size_ ≤ (Vector.Reserve c v n).Capacity
    rw [r1, r2]
    omega
  · obtain ⟨r1, r2, -⟩ := Resize_spec c v n hv'
    show (Vector.Resize c v n).size_ ≤ (Vector.Resize c v n).Capacity
    rw [r1, r2]
    split <;> omega
  · show v.size_ - 1 ≤ v.slots.length
    have h1 : v.size_ ≤ v.slots.length := hv'
    omega
  · obtain ⟨s1, s2⟩ := Erase_state v p
    show (Vector.Erase v p).1.size_ ≤ (Vector.Erase v p).1.Capacity
    rw [s1, s2]
    omega

/-- Witness for C8 at concrete operands. -/
theorem claim_C8_witness :
    (⟨[1, 2], 2⟩ : Vector ℕ).Inv ∧ (⟨[5], 1⟩ : Vector ℕ).Inv ∧
    ((Vector.empty ℕ).Inv ∧
     (Vector.mkN ℕ 3).Inv ∧
     (Vector.copyCtor (⟨[1, 2], 2⟩ : Vector ℕ)).Inv ∧
     (Vector.moveCtor (⟨[1, 2], 2⟩ : Vector ℕ)).1.Inv ∧
     (Vector.moveCtor (⟨[1, 2], 2⟩ : Vector ℕ)).2.Inv ∧
     (Vector.assignCopy (⟨[1, 2], 2⟩ : Vector ℕ) ⟨[5], 1⟩).Inv ∧
     (Vector.assignMove (⟨[1, 2], 2⟩ : Vector ℕ) ⟨[5], 1⟩).1.Inv ∧
     (Vector.assignMove (⟨[1, 2], 2⟩ : Vector ℕ) ⟨[5], 1⟩).2.Inv ∧
     (Vector.Reserve ⟨true, true⟩ (⟨[1, 2], 2⟩ : Vector ℕ) 3).Inv ∧
     (Vector.Resize ⟨true, true⟩ (⟨[1, 2], 2⟩ : Vector ℕ) 3).Inv ∧
     (Vector.EmplaceBack ⟨true, true⟩ (⟨[1, 2], 2⟩ : Vector ℕ) (fun _ => 7)).Inv ∧
     (Vector.PushBack ⟨true, true⟩ (⟨[1, 2], 2⟩ : Vector ℕ) 7).Inv ∧
     (Vector.PopBack (⟨[1, 2], 2⟩ : Vector ℕ)).Inv ∧
     (Vector.Emplace ⟨true, true⟩ (⟨[1, 2], 2⟩ : Vector ℕ) 0 (fun _ => 7)).1.Inv ∧
     (Vector.Insert ⟨true, true⟩ (⟨[1, 2], 2⟩ : Vector ℕ) 0 7).1.Inv ∧
     (Vector.Erase (⟨[1, 2], 2⟩ : Vector ℕ) 0).1.Inv ∧
     (Vector.Swap (⟨[1, 2], 2⟩ : Vector ℕ) ⟨[5], 1⟩).1.Inv ∧
     (Vector.Swap (⟨[1, 2], 2⟩ : Vector ℕ) ⟨[5], 1⟩).2.Inv) :=
  ⟨by decide, by decide,
   claim_C8 ⟨true, true⟩ ⟨[1, 2], 2⟩ ⟨[5], 1⟩ 3 0 7 (by decide) (by decide)⟩

/-- Claim C9: the iterator-returning operator+ ignores its argument; for
every vector v and every n, v + n is the end iterator (the offset one past
the last live element), and it coincides with the address at offset n
exactly when n equals the size. -/
theorem claim_C9 {T : Type} (v : Vector T) (n : ℕ) :
    Vector.opPlus v n = Vector.endIt v ∧
    (Vector.opPlus v n = Vector.beginIt v + n ↔ n = v.size_) := by
  refine ⟨rfl, ?_⟩
  unfold Vector.opPlus Vector.beginIt
  omega

/-- Witness for C9 at a concrete vector and offset. -/
theorem claim_C9_witness :
    Vector.opPlus (⟨[1, 2], 2⟩ : Vector ℕ) 0 = Vector.endIt (⟨[1, 2], 2⟩ : Vector ℕ) ∧
    (Vector.opPlus (⟨[1, 2], 2⟩ : Vector ℕ) 0
        = Vector.beginIt (⟨[1, 2], 2⟩ : Vector ℕ) + 0
      ↔ 0 = (⟨[1, 2], 2⟩ : Vector ℕ).size_) :=
  claim_C9 _ 0

/-- Claim C10: in the non-reallocating positional-insert path (position <
length and length < capacity), Emplace constructs the new value into a
standalone temporary before relocating or shifting any existing element, so
inserting a value read from the vector itself inserts the value that slot
held before any shifting occurred. -/
theorem claim_C10 {T : Type} [Inhabited T] (c : TypeCaps) (v : Vector T)
    (p i : ℕ) (hp : p < v.size_) (hcap : v.size_ < v.Capacity) (hi : i < v.size_) :
    (Vector.Emplace c v p (fun s => s.getD i default)).1.elems
      = refInsertAt v.elems p (v.elems.getD i default) := by
  obtain ⟨e1, -, -⟩ := Emplace_spec c v p (fun s => s.getD i default)
    (by omega) (by omega)
  rw [elems_getD v i hi]
  exact e1

/-- Witness for C10: inserting v[2] at the front of [10, 20, 30] (capacity
4) inserts the pre-shift value 30. -/
theorem claim_C10_witness :
    0 < (⟨[10, 20, 30, 0], 3⟩ : Vector ℕ).size_ ∧
    (⟨[10, 20, 30, 0], 3⟩ : Vector ℕ).size_ < (⟨[10, 20, 30, 0], 3⟩ : Vector ℕ).Capacity ∧
    2 < (⟨[10, 20, 30, 0], 3⟩ : Vector ℕ).size_ ∧
    (Vector.Emplace ⟨true, true⟩ (⟨[10, 20, 30, 0], 3⟩ : Vector ℕ) 0
        (fun s => s.getD 2 default)).1.elems
      = refInsertAt (⟨[10, 20, 30, 0], 3⟩ : Vector ℕ).elems 0
          ((⟨[10, 20, 30, 0], 3⟩ : Vector ℕ).elems.getD 2 default) :=
  ⟨by decide, by decide, by decide,
   claim_C10 ⟨true, true⟩ _ 0 2 (by decide) (by decide) (by decide)⟩

end Cpp
